import Mathlib

/-!
Shallow embedding of the waveform capture/comparison core of
`wintertools` (`wintertools/waveform.py`) and verification of its
specification.  Machine floating point is modelled by exact rationals;
numpy / PIL primitives (`np.linspace`, `np.arange`, `np.interp`,
`np.correlate`, `np.fft.fft`, `ImageChops.logical_or`,
`ImageChops.subtract`, binary-image line rasterization) are modelled
from their documented semantics, with `Option` marking the places where
the Python library call raises.
-/

/-- Model of `np.linspace(a, b, n)` (endpoint included): `n` evenly spaced
values from `a` to `b`.  For `n = 1` numpy returns `[a]`, which agrees with
this formula because rational division by zero is zero. -/
def linspace (a b : ℚ) (n : ℕ) : List ℚ :=
  (List.range n).map fun i : ℕ => a + (i : ℚ) * (b - a) / ((n : ℚ) - 1)

/-- Model of `np.arange(n)`: the values `0, 1, ..., n-1` as rationals. -/
def arange (n : ℕ) : List ℚ :=
  (List.range n).map fun i : ℕ => (i : ℚ)

/-- Model of scalar `np.interp(x, xp, fp)` for an increasing sample grid
`xp` with values `fp` of the same length: piecewise-linear interpolation,
clamped to `fp.head` below the grid and to the last value above it.
An empty grid (where numpy raises) returns the junk value `0`; callers
guard that case with `Option`. -/
def interp (x : ℚ) : List ℚ → List ℚ → ℚ
  | x0 :: x1 :: xs, y0 :: y1 :: ys =>
      if x ≤ x0 then y0
      else if x ≤ x1 then y0 + (x - x0) * (y1 - y0) / (x1 - x0)
      else interp x (x1 :: xs) (y1 :: ys)
  | _ :: _, y0 :: _ => y0
  | _, _ => 0

/-- Model of `_resample(src, num_samples)`:
`np.interp(np.linspace(0, src.size - 1, num_samples), np.arange(src.size), src)`. -/
def _resample (src : List ℚ) (num_samples : ℕ) : List ℚ :=
  (linspace 0 ((src.length : ℚ) - 1) num_samples).map fun x =>
    interp x (arange src.length) src

/-- Model of `ndarray.astype(int)` on one value: C truncation toward zero. -/
def truncInt (q : ℚ) : ℤ :=
  if 0 ≤ q then ⌊q⌋ else ⌈q⌉

/-- The `y_coords` stage of `_map_series_to_image_coords`:
`np.array(dst_height) - np.interp(series, y_src_space, y_dst_space).astype(int)`
with `y_src_space = linspace(src_min, src_max, dst_height)` and
`y_dst_space = arange(dst_height)`. -/
def y_coords (series : List ℚ) (src_min src_max : ℚ) (dst_height : ℕ) : List ℤ :=
  series.map fun v =>
    (dst_height : ℤ) -
      truncInt (interp v (linspace src_min src_max dst_height) (arange dst_height))

/-- The `x_to_y_coords` stage of `_map_series_to_image_coords`:
`np.interp(x_dst_space, x_src_space, y_coords).astype(int)` with
`x_src_space = linspace(0, dst_width, len(series))` and
`x_dst_space = arange(dst_width)`. -/
def x_to_y_coords (series : List ℚ) (src_min src_max : ℚ)
    (dst_width dst_height : ℕ) : List ℤ :=
  (arange dst_width).map fun x =>
    truncInt (interp x (linspace 0 (dst_width : ℚ) series.length)
      ((y_coords series src_min src_max dst_height).map fun z : ℤ => (z : ℚ)))

/-- The value `_map_series_to_image_coords` produces whenever numpy does not
raise: `np.column_stack((x_dst_space, x_to_y_coords))`, i.e. `dst_width`
points `(x, y)`. -/
def coordsList (series : List ℚ) (src_min src_max : ℚ) (dst_width dst_height : ℕ) :
    List (ℤ × ℤ) :=
  ((List.range dst_width).map fun i : ℕ => (i : ℤ)).zip
    (x_to_y_coords series src_min src_max dst_width dst_height)

/-- Model of `_map_series_to_image_coords`.  `none` models the `ValueError`
that `np.interp` raises when its sample grid is empty: the row table is empty
when `dst_height = 0`, and the column grid is empty when the series is empty. -/
def _map_series_to_image_coords (series : List ℚ) (src_min src_max : ℚ)
    (dst_width dst_height : ℕ) : Option (List (ℤ × ℤ)) :=
  if dst_height = 0 ∨ series = [] then none
  else some (coordsList series src_min src_max dst_width dst_height)

/-- Squared distance from the point `(px, py)` to the segment from
`(a1, a2)` to `(b1, b2)`. -/
def segDistSq (px py a1 a2 b1 b2 : ℚ) : ℚ :=
  let dx := b1 - a1
  let dy := b2 - a2
  if dx = 0 ∧ dy = 0 then (px - a1) ^ 2 + (py - a2) ^ 2
  else
    let t := max 0 (min 1 (((px - a1) * dx + (py - a2) * dy) / (dx ^ 2 + dy ^ 2)))
    (px - (a1 + t * dx)) ^ 2 + (py - (a2 + t * dy)) ^ 2

/-- Model of PIL `ImageDraw.line(polyline, width, joint="curve")` pixel
coverage: the pixel `(x, y)` is lit when its center lies within `width / 2`
of some segment of the polyline (round caps/joints are the endpoint discs
included in point-to-segment distance). -/
def polylineLit (pts : List (ℤ × ℤ)) (thickness : ℕ) (x y : ℕ) : Bool :=
  (pts.zip pts.tail).any fun s =>
    decide (segDistSq (x : ℚ) (y : ℚ) (s.1.1 : ℚ) (s.1.2 : ℚ) (s.2.1 : ℚ) (s.2.2 : ℚ)
      ≤ ((thickness : ℚ) / 2) ^ 2)

/-- A mode-`"1"` PIL image: dimensions plus a boolean pixel grid. -/
structure BinImage where
  width : ℕ
  height : ℕ
  pix : ℕ → ℕ → Bool

/-- Number of lit pixels inside the image rectangle. -/
def litCount (img : BinImage) : ℕ :=
  (((Finset.range img.width) ×ˢ (Finset.range img.height)).filter
    fun p => img.pix p.1 p.2 = true).card

/-- Model of `ImageChops.logical_or` on mode-`"1"` images; PIL raises
(`none`) when the sizes do not match. -/
def ImageChops.logical_or (a b : BinImage) : Option BinImage :=
  if a.width = b.width ∧ a.height = b.height then
    some ⟨a.width, a.height, fun x y => a.pix x y || b.pix x y⟩
  else none

/-- Model of `ImageChops.subtract` on mode-`"1"` images (clamped pixel
subtraction, so lit exactly where `a` is lit and `b` is not); PIL raises
(`none`) when the sizes do not match. -/
def ImageChops.subtract (a b : BinImage) : Option BinImage :=
  if a.width = b.width ∧ a.height = b.height then
    some ⟨a.width, a.height, fun x y => a.pix x y && !b.pix x y⟩
  else none

/-- The `Waveform` dataclass.  Python ints are `ℤ`, floats are `ℚ`, and the
`N × 2` sample array is a list of `(time, voltage)` pairs. -/
structure Waveform where
  vertical_resolution : ℤ
  vertical_division : ℚ
  vertical_offset : ℚ
  vertical_max : ℚ
  vertical_min : ℚ
  time_division : ℚ
  trigger_offset : ℚ
  sample_rate : ℚ
  sample_step : ℤ
  frequency : ℚ
  data : List (ℚ × ℚ)
deriving DecidableEq

/-- Property `Waveform.time_data`: the first column of `data`. -/
def Waveform.time_data (w : Waveform) : List ℚ :=
  w.data.map Prod.fst

/-- Property `Waveform.voltage_data`: the second column of `data`. -/
def Waveform.voltage_data (w : Waveform) : List ℚ :=
  w.data.map Prod.snd

/-- Property `Waveform.num_samples`. -/
def Waveform.num_samples (w : Waveform) : ℕ :=
  w.data.length

/-- Model of `Waveform.to_binary_image(size=size, thickness=thickness)`:
resolve the default size (`num_samples * 2` by `vertical_resolution * 2`
when a component is `≤ 0`), then draw the rasterized voltage polyline.
`none` models the exceptions raised by `Image.new` on a negative height and
by `np.interp` inside `_map_series_to_image_coords`. -/
def Waveform.to_binary_image (wf : Waveform) (size : ℤ × ℤ) (thickness : ℕ) :
    Option BinImage :=
  let w : ℤ := if size.1 ≤ 0 then (wf.num_samples : ℤ) * 2 else size.1
  let h : ℤ := if size.2 ≤ 0 then wf.vertical_resolution * 2 else size.2
  if h < 0 then none
  else
    (_map_series_to_image_coords wf.voltage_data wf.vertical_min wf.vertical_max
        w.toNat h.toNat).map
      fun pts => ⟨w.toNat, h.toNat, fun x y => polylineLit pts thickness x y⟩

/-- The value stored under the `"data"` key of a waveform dict: either the
nested-list form produced by `to_dict` / JSON decoding, or the numpy array
that `from_dict` stores back (values of an `N × 2` float64 array kept as
pairs). -/
inductive DataEntry where
  | pylist : List (List ℚ) → DataEntry
  | ndarray : List (ℚ × ℚ) → DataEntry
deriving DecidableEq

/-- A Python dict with exactly the `Waveform` field names as keys, as
produced by `Waveform.to_dict` and consumed by `Waveform.from_dict`. -/
structure WaveformDict where
  vertical_resolution : ℤ
  vertical_division : ℚ
  vertical_offset : ℚ
  vertical_max : ℚ
  vertical_min : ℚ
  time_division : ℚ
  trigger_offset : ℚ
  sample_rate : ℚ
  sample_step : ℤ
  frequency : ℚ
  data : DataEntry
deriving DecidableEq

/-- Model of `Waveform.to_dict`: copy every field; the ndarray field is
converted by `tolist()` into nested `[time, voltage]` lists. -/
def Waveform.to_dict (wf : Waveform) : WaveformDict where
  vertical_resolution := wf.vertical_resolution
  vertical_division := wf.vertical_division
  vertical_offset := wf.vertical_offset
  vertical_max := wf.vertical_max
  vertical_min := wf.vertical_min
  time_division := wf.time_division
  trigger_offset := wf.trigger_offset
  sample_rate := wf.sample_rate
  sample_step := wf.sample_step
  frequency := wf.frequency
  data := DataEntry.pylist (wf.data.map fun p => [p.1, p.2])

/-- Model of `np.array(rows, dtype=np.float64)` for the nested-list form of
an `N × 2` sample array: succeeds exactly when every row is a 2-element
list (numpy raises on ragged input; a `Waveform` sample array is `N × 2`). -/
def parsePairs : List (List ℚ) → Option (List (ℚ × ℚ))
  | [] => some []
  | row :: rest =>
    match row with
    | [a, b] => (parsePairs rest).map fun t => (a, b) :: t
    | _ => none

/-- Model of `Waveform.from_dict(data)`.  It converts `data["data"]` with
`np.array` and stores the array back into the dict (`data["data"] = ...`)
before constructing the `Waveform`, so the result is the pair of the new
`Waveform` and the post-call state of the argument dict. -/
def Waveform.from_dict (d : WaveformDict) : Option (Waveform × WaveformDict) :=
  let build : List (ℚ × ℚ) → Waveform × WaveformDict := fun pairs =>
    ({ vertical_resolution := d.vertical_resolution
       vertical_division := d.vertical_division
       vertical_offset := d.vertical_offset
       vertical_max := d.vertical_max
       vertical_min := d.vertical_min
       time_division := d.time_division
       trigger_offset := d.trigger_offset
       sample_rate := d.sample_rate
       sample_step := d.sample_step
       frequency := d.frequency
       data := pairs },
     { d with data := DataEntry.ndarray pairs })
  match d.data with
  | DataEntry.pylist rows => (parsePairs rows).map build
  | DataEntry.ndarray pairs => some (build pairs)

/-- Model of `np.correlate(a, v)` in its default `"valid"` mode for
equal-length real inputs: the single zero-lag product sum. -/
def np_correlate (a v : List ℚ) : ℚ :=
  ((a.zip v).map fun p => p.1 * p.2).sum

/-- Model of `np.correlate(a, v)` at zero lag over an arbitrary commutative
ring, with the conjugation that numpy applies to `v` passed explicitly
(identity for real data, complex conjugation for FFT outputs). -/
def np_correlateC {R : Type} [CommRing R] (conj : R → R) (a v : List R) : R :=
  ((a.zip v).map fun p => p.1 * conj p.2).sum

/-- Model of `np.fft.fft(x)`: the discrete Fourier transform
`X k = Σ n, x n * ω ^ (k * n)` over any commutative ring, with the root of
unity `ω` (numpy uses `exp(-2πi/N)`) passed as a parameter. -/
def np_fft {R : Type} [CommRing R] (ω : R) (x : List R) : List R :=
  (List.range x.length).map fun k : ℕ =>
    ((List.range x.length).map fun n : ℕ => x.getD n 0 * ω ^ (k * n)).sum

/-- Metric `WaveformSimilarity.time`:
`abs(np.correlate(ref.voltage_data, ref.voltage_data)
   - np.correlate(ref.voltage_data, other.voltage_data))[0]`. -/
def WaveformSimilarity.time (reference other : Waveform) : ℚ :=
  |np_correlate reference.voltage_data reference.voltage_data -
    np_correlate reference.voltage_data other.voltage_data|

/-- Metric `WaveformSimilarity.power`:
`abs(np.sum(ref.voltage_data ** 2) - np.sum(other.voltage_data ** 2))`. -/
def WaveformSimilarity.power (reference other : Waveform) : ℚ :=
  |(reference.voltage_data.map fun v => v ^ 2).sum -
    (other.voltage_data.map fun v => v ^ 2).sum|

/-- Metric `WaveformSimilarity.frequency` before the final `abs`:
`np.correlate(ref_fft, ref_fft) - np.correlate(ref_fft, fft(other))`,
over any commutative ring carrying the FFT root `ω` and numpy's
conjugation. -/
def WaveformSimilarity.frequencyDiff {R : Type} [CommRing R] (conj : R → R)
    (ω : R) (reference other : List R) : R :=
  np_correlateC conj (np_fft ω reference) (np_fft ω reference) -
    np_correlateC conj (np_fft ω reference) (np_fft ω other)

/-- The mutable state of a `WaveformPassFail` instance. -/
structure WaveformPassFail where
  resolution : ℤ × ℤ
  reference_image : Option BinImage

/-- Constructor `WaveformPassFail(resolution=resolution)`: fresh instance, no
reference mask yet. -/
def WaveformPassFail.mk' (resolution : ℤ × ℤ) : WaveformPassFail :=
  ⟨resolution, none⟩

/-- Model of `WaveformPassFail.add_reference(reference, tolerance=t)`:
rasterize at `thickness = ceil(num_samples * tolerance)`; the first mask is
stored and fixes `resolution` from the image's actual size, later masks are
OR-ed in.  `none` models an exception escaping from rasterization or from
`ImageChops.logical_or`. -/
def WaveformPassFail.add_reference (st : WaveformPassFail) (reference : Waveform)
    (tolerance : ℚ) : Option WaveformPassFail :=
  (reference.to_binary_image st.resolution
      (⌈(reference.num_samples : ℚ) * tolerance⌉).toNat).bind
    fun ref_img =>
      match st.reference_image with
      | none => some ⟨((ref_img.width : ℤ), (ref_img.height : ℤ)), some ref_img⟩
      | some old =>
        (ImageChops.logical_or old ref_img).map fun m =>
          { st with reference_image := some m }

/-- A `WaveformPassFailResult`. -/
structure WaveformPassFailResult where
  reference_image : BinImage
  measured_image : BinImage
  outside_image : BinImage

/-- Model of `WaveformPassFail.compare(wf)`: rasterize the candidate at
`thickness = 1` and subtract the reference mask.  `none` models an
exception (rasterization failure, `reference_image` still `None`, or a size
mismatch in `ImageChops.subtract`); the state component of the result makes
explicit that `compare` leaves the instance unchanged. -/
def WaveformPassFail.compare (st : WaveformPassFail) (wf : Waveform) :
    Option (WaveformPassFail × WaveformPassFailResult) :=
  (wf.to_binary_image st.resolution 1).bind fun measured =>
    st.reference_image.bind fun ref =>
      (ImageChops.subtract measured ref).map fun outside =>
        (st, ⟨ref, measured, outside⟩)

/-! ### Helper lemmas -/

theorem interp_nil (x : ℚ) (fp : List ℚ) : interp x [] fp = 0 := by
  cases fp <;> rfl

theorem interp_singleton (x x0 y0 : ℚ) (ys : List ℚ) :
    interp x [x0] (y0 :: ys) = y0 := rfl

theorem interp_cons₂ (x x0 x1 y0 y1 : ℚ) (xs ys : List ℚ) :
    interp x (x0 :: x1 :: xs) (y0 :: y1 :: ys) =
      if x ≤ x0 then y0
      else if x ≤ x1 then y0 + (x - x0) * (y1 - y0) / (x1 - x0)
      else interp x (x1 :: xs) (y1 :: ys) := rfl

theorem lin_interp_bounds (lo hi x x0 x1 y0 y1 : ℚ) (h0 : x0 < x) (h1 : x ≤ x1)
    (hy0 : lo ≤ y0 ∧ y0 ≤ hi) (hy1 : lo ≤ y1 ∧ y1 ≤ hi) :
    lo ≤ y0 + (x - x0) * (y1 - y0) / (x1 - x0) ∧
      y0 + (x - x0) * (y1 - y0) / (x1 - x0) ≤ hi := by
  have hd : 0 < x1 - x0 := by linarith
  have hv : y0 + (x - x0) * (y1 - y0) / (x1 - x0)
      = ((x1 - x) * y0 + (x - x0) * y1) / (x1 - x0) := by
    field_simp
    ring
  constructor
  · rw [hv, le_div_iff₀ hd]
    have a1 : 0 ≤ (x1 - x) * (y0 - lo) := mul_nonneg (by linarith) (by linarith)
    have a2 : 0 ≤ (x - x0) * (y1 - lo) := mul_nonneg (by linarith) (by linarith)
    nlinarith [a1, a2]
  · rw [hv, div_le_iff₀ hd]
    have a1 : 0 ≤ (x1 - x) * (hi - y0) := mul_nonneg (by linarith) (by linarith)
    have a2 : 0 ≤ (x - x0) * (hi - y1) := mul_nonneg (by linarith) (by linarith)
    nlinarith [a1, a2]

/-- Linear interpolation never leaves any band that contains all of its
sample values. -/
theorem interp_bounded (lo hi x : ℚ) :
    ∀ (xp fp : List ℚ), xp.length = fp.length → fp ≠ [] →
      (∀ y ∈ fp, lo ≤ y ∧ y ≤ hi) →
      lo ≤ interp x xp fp ∧ interp x xp fp ≤ hi := by
  intro xp
  induction xp with
  | nil =>
    intro fp h hne _
    cases fp with
    | nil => exact absurd rfl hne
    | cons y0 ys => simp at h
  | cons x0 xp' ih =>
    intro fp h hne hb
    cases fp with
    | nil => exact absurd rfl hne
    | cons y0 fp' =>
      cases xp' with
      | nil =>
        cases fp' with
        | nil => exact hb y0 (by simp)
        | cons y1 ys => simp at h
      | cons x1 xs =>
        cases fp' with
        | nil => simp at h
        | cons y1 ys =>
          rw [interp_cons₂]
          by_cases hx0 : x ≤ x0
          · simpa [hx0] using hb y0 (by simp)
          · by_cases hx1 : x ≤ x1
            · simp only [hx0, hx1, if_true, if_false]
              exact lin_interp_bounds lo hi x x0 x1 y0 y1 (lt_of_not_le hx0) hx1
                (hb y0 (by simp)) (hb y1 (by simp))
            · simp only [hx0, hx1, if_false]
              refine ih (y1 :: ys) (by simpa using h) (by simp) ?_
              intro y hy
              exact hb y (List.mem_cons_of_mem _ hy)

/-- On a strictly increasing grid, interpolating at the `i`-th grid point
returns the `i`-th sample exactly. -/
theorem interp_at_grid :
    ∀ (xp fp : List ℚ), xp.Pairwise (· < ·) → xp.length = fp.length →
      ∀ i, i < xp.length → interp (xp.getD i 0) xp fp = fp.getD i 0 := by
  intro xp
  induction xp with
  | nil => intro fp _ _ i hi; simp at hi
  | cons x0 xp' ih =>
    intro fp hp h i hi
    cases fp with
    | nil => simp at h
    | cons y0 fp' =>
      have hlt : ∀ z ∈ xp', x0 < z := by
        intro z hz
        exact (List.pairwise_cons.mp hp).1 z hz
      cases i with
      | zero =>
        cases xp' with
        | nil =>
          cases fp' with
          | nil => rfl
          | cons y1 ys => simp at h
        | cons x1 xs =>
          cases fp' with
          | nil => simp at h
          | cons y1 ys => simp [interp_cons₂]
      | succ j =>
        have hj : j < xp'.length := by simpa using hi
        cases xp' with
        | nil => simp at hj
        | cons x1 xs =>
          cases fp' with
          | nil => simp at h
          | cons y1 ys =>
            have hx : (x0 :: x1 :: xs).getD (j + 1) 0 = (x1 :: xs).getD j 0 := rfl
            have hmem : (x1 :: xs).getD j 0 ∈ x1 :: xs := by
              rw [List.getD_eq_getElem _ _ hj]
              exact List.getElem_mem hj
            have hgt : x0 < (x1 :: xs).getD j 0 := hlt _ hmem
            rw [hx, interp_cons₂, if_neg (not_le.mpr hgt)]
            cases j with
            | zero =>
              have hne : x1 - x0 ≠ 0 := by
                have : x0 < x1 := hlt x1 (by simp)
                intro hc; linarith
              simp only [List.getD_cons_zero, List.getD_cons_succ]
              rw [if_pos le_rfl]
              field_simp
            | succ k =>
              have hk : k < xs.length := by simpa using hj
              have hmem' : xs.getD k 0 ∈ xs := by
                rw [List.getD_eq_getElem _ _ hk]
                exact List.getElem_mem hk
              have hgt1 : x1 < xs.getD k 0 := by
                have hp' : (x1 :: xs).Pairwise (· < ·) :=
                  (List.pairwise_cons.mp hp).2
                exact (List.pairwise_cons.mp hp').1 _ hmem'
              have hx2 : (x1 :: xs).getD (k + 1) 0 = xs.getD k 0 := rfl
              rw [hx2, if_neg (not_le.mpr hgt1)]
              have := ih (y1 :: ys) (List.pairwise_cons.mp hp).2
                (by simpa using h) (k + 1) (by simpa using hj)
              simpa using this

theorem linspace_length (a b : ℚ) (n : ℕ) : (linspace a b n).length = n := by
  simp [linspace]

theorem arange_length (n : ℕ) : (arange n).length = n := by
  simp [arange]

theorem arange_getD (n i : ℕ) (hi : i < n) : (arange n).getD i 0 = (i : ℚ) := by
  unfold arange
  rw [List.getD_eq_getElem _ _ (by simpa using hi), List.getElem_map]
  simp

theorem arange_pairwise (n : ℕ) : (arange n).Pairwise (· < ·) := by
  unfold arange
  rw [List.pairwise_map]
  exact (List.pairwise_lt_range n).imp fun h => by exact_mod_cast h

theorem arange_mem_bounds (n : ℕ) (q : ℚ) (hq : q ∈ arange n) :
    0 ≤ q ∧ q ≤ (n : ℚ) - 1 := by
  unfold arange at hq
  obtain ⟨i, hi, rfl⟩ := List.mem_map.mp hq
  have hi' : i < n := List.mem_range.mp hi
  constructor
  · positivity
  · have : (i : ℚ) + 1 ≤ (n : ℚ) := by exact_mod_cast hi'
    linarith

/-- Identity used by C5: `np.linspace(0, L - 1, L)` is `np.arange(L)` exactly. -/
theorem linspace_eq_arange (L : ℕ) : linspace 0 ((L : ℚ) - 1) L = arange L := by
  unfold linspace arange
  apply List.map_congr_left
  intro i hi
  have hi' : i < L := List.mem_range.mp hi
  by_cases hL : (L : ℚ) - 1 = 0
  · have : L = 1 := by
      have : (L : ℚ) = 1 := by linarith
      exact_mod_cast this
    subst this
    interval_cases i
    simp
  · rw [sub_zero, mul_div_assoc, div_self hL]
    ring

/-- numpy `astype(int)` truncation keeps integer bounds around a
nonnegative band. -/
theorem truncInt_bounds (a b : ℤ) (q : ℚ) (ha : 0 ≤ a) (h1 : (a : ℚ) ≤ q)
    (h2 : q ≤ (b : ℚ)) : a ≤ truncInt q ∧ truncInt q ≤ b := by
  have hq : 0 ≤ q := le_trans (by exact_mod_cast ha) h1
  unfold truncInt
  rw [if_pos hq]
  constructor
  · exact Int.le_floor.mpr h1
  · calc ⌊q⌋ ≤ ⌊(b : ℚ)⌋ := Int.floor_le_floor h2
    _ = b := Int.floor_intCast b

/-- Thicker strokes of the same polyline cover every pixel that thinner
strokes cover. -/
theorem polylineLit_mono (pts : List (ℤ × ℤ)) (t1 t2 : ℕ) (h : t1 ≤ t2)
    (x y : ℕ) (hl : polylineLit pts t1 x y = true) :
    polylineLit pts t2 x y = true := by
  unfold polylineLit at hl ⊢
  rw [List.any_eq_true] at hl ⊢
  obtain ⟨s, hs, hd⟩ := hl
  refine ⟨s, hs, ?_⟩
  rw [decide_eq_true_iff] at hd ⊢
  refine le_trans hd ?_
  have h2 : ((t1 : ℚ) / 2) ≤ ((t2 : ℚ) / 2) := by
    have : (t1 : ℚ) ≤ (t2 : ℚ) := by exact_mod_cast h
    linarith
  have h0 : (0 : ℚ) ≤ (t1 : ℚ) / 2 := by positivity
  exact pow_le_pow_left₀ h0 h2 2

theorem parsePairs_map (l : List (ℚ × ℚ)) :
    parsePairs (l.map fun p => [p.1, p.2]) = some l := by
  induction l with
  | nil => rfl
  | cons p t ih => simp [parsePairs, ih]

/-- Value `min(S)` of a nonempty list (junk `0` on the empty list). -/
def listMin : List ℚ → ℚ
  | [] => 0
  | [a] => a
  | a :: b :: t => min a (listMin (b :: t))

/-- Value `max(S)` of a nonempty list (junk `0` on the empty list). -/
def listMax : List ℚ → ℚ
  | [] => 0
  | [a] => a
  | a :: b :: t => max a (listMax (b :: t))

theorem listMin_le_mem : ∀ (l : List ℚ) (y : ℚ), y ∈ l → listMin l ≤ y := by
  intro l
  induction l with
  | nil => intro y hy; simp at hy
  | cons a t ih =>
    intro y hy
    cases t with
    | nil =>
      have : y = a := by simpa using hy
      simp [this, listMin]
    | cons b t' =>
      have he : listMin (a :: b :: t') = min a (listMin (b :: t')) := rfl
      rcases List.mem_cons.mp hy with h | h
      · rw [he, h]; exact min_le_left _ _
      · rw [he]; exact le_trans (min_le_right _ _) (ih y h)

theorem le_listMax_mem : ∀ (l : List ℚ) (y : ℚ), y ∈ l → y ≤ listMax l := by
  intro l
  induction l with
  | nil => intro y hy; simp at hy
  | cons a t ih =>
    intro y hy
    cases t with
    | nil =>
      have : y = a := by simpa using hy
      simp [this, listMax]
    | cons b t' =>
      have he : listMax (a :: b :: t') = max a (listMax (b :: t')) := rfl
      rcases List.mem_cons.mp hy with h | h
      · rw [he, h]; exact le_max_left _ _
      · rw [he]; exact le_trans (ih y h) (le_max_right _ _)

/-- Resampling a series to its own length is the identity in exact arithmetic. -/
theorem resample_self (S : List ℚ) : _resample S S.length = S := by
  unfold _resample
  rw [linspace_eq_arange]
  apply List.ext_getElem
  · simp [arange_length]
  · intro n h1 h2
    rw [List.getElem_map]
    have hn : n < (arange S.length).length := by
      simpa [arange_length] using h2
    have hg := interp_at_grid (arange S.length) S (arange_pairwise _)
      (by simp [arange_length]) n (by simpa [arange_length] using h2)
    rw [List.getD_eq_getElem _ _ hn] at hg
    rw [hg, List.getD_eq_getElem _ _ h2]

/-! ### Claims -/

/-- C5: for every non-empty series `S` of length `L`, `_resample S L` has
length `L` and each element differs from the corresponding element of `S`
by at most `1e-9` (the evenly spaced query positions coincide with the
original indices, so the values are reproduced exactly). -/
theorem resample_identity (S : List ℚ) (hS : S ≠ []) :
    (_resample S S.length).length = S.length ∧
    ∀ i, i < S.length →
      |(_resample S S.length).getD i 0 - S.getD i 0| ≤ 1 / 1000000000 := by
  rw [resample_self]
  refine ⟨rfl, fun i _ => ?_⟩
  simp only [sub_self, abs_zero]
  norm_num

/-- C5 witness: a concrete non-empty series. -/
theorem resample_identity_witness :
    (([3, 1, 4, 1, 5] : List ℚ) ≠ []) ∧
    ((_resample [3, 1, 4, 1, 5] ([3, 1, 4, 1, 5] : List ℚ).length).length
        = ([3, 1, 4, 1, 5] : List ℚ).length ∧
      ∀ i, i < ([3, 1, 4, 1, 5] : List ℚ).length →
        |(_resample [3, 1, 4, 1, 5] ([3, 1, 4, 1, 5] : List ℚ).length).getD i 0
            - ([3, 1, 4, 1, 5] : List ℚ).getD i 0| ≤ 1 / 1000000000) :=
  ⟨by decide, resample_identity [3, 1, 4, 1, 5] (by decide)⟩

/-- C6: for every non-empty series `S` and target count `N ≥ 1`,
`_resample S N` has exactly `N` elements, every element lies in
`[min S, max S]`, and when `S` is a single sample every output equals it. -/
theorem resample_length_bounds (S : List ℚ) (N : ℕ) (hS : S ≠ []) (hN : 1 ≤ N) :
    (_resample S N).length = N ∧
    (∀ v ∈ _resample S N, listMin S ≤ v ∧ v ≤ listMax S) ∧
    (∀ a : ℚ, S = [a] → ∀ v ∈ _resample S N, v = a) := by
  refine ⟨by simp [_resample, linspace_length], ?_, ?_⟩
  · intro v hv
    unfold _resample at hv
    obtain ⟨x, _, rfl⟩ := List.mem_map.mp hv
    exact interp_bounded (listMin S) (listMax S) x (arange S.length) S
      (by simp [arange_length]) hS
      (fun y hy => ⟨listMin_le_mem S y hy, le_listMax_mem S y hy⟩)
  · intro a ha v hv
    subst ha
    unfold _resample at hv
    obtain ⟨x, _, rfl⟩ := List.mem_map.mp hv
    have h1 : arange ([a] : List ℚ).length = [0] := rfl
    rw [h1]
    exact interp_singleton x 0 a []

/-- C6 witness: a concrete series and count. -/
theorem resample_length_bounds_witness :
    (([3, 1, 4] : List ℚ) ≠ []) ∧ 1 ≤ 5 ∧
    ((_resample [3, 1, 4] 5).length = 5 ∧
      (∀ v ∈ _resample ([3, 1, 4] : List ℚ) 5,
        listMin [3, 1, 4] ≤ v ∧ v ≤ listMax [3, 1, 4]) ∧
      (∀ a : ℚ, ([3, 1, 4] : List ℚ) = [a] →
        ∀ v ∈ _resample ([3, 1, 4] : List ℚ) 5, v = a)) :=
  ⟨by decide, by decide, resample_length_bounds [3, 1, 4] 5 (by decide) (by decide)⟩

/-- C3: a `WaveformSimilarity` of a waveform with itself has time metric,
power metric and (for any embedding of the samples into a ring with any
conjugation and FFT root, in particular the complex numbers with numpy's
`exp(-2πi/N)`) frequency metric exactly `0`. -/
theorem similarity_self_zero (w : Waveform) :
    WaveformSimilarity.time w w = 0 ∧
    WaveformSimilarity.power w w = 0 ∧
    ∀ (R : Type) [CommRing R] (conj : R → R) (ω : R) (embed : ℚ → R),
      WaveformSimilarity.frequencyDiff conj ω (w.voltage_data.map embed)
        (w.voltage_data.map embed) = 0 := by
  refine ⟨?_, ?_, ?_⟩
  · simp [WaveformSimilarity.time]
  · simp [WaveformSimilarity.power]
  · intro R _ conj ω embed
    unfold WaveformSimilarity.frequencyDiff
    exact sub_self _

/-- C4: `from_dict` applied to `to_dict w` succeeds and rebuilds a waveform
equal to `w` in every field (the dict it was given comes back with its
`data` entry replaced by the parsed array). -/
theorem from_dict_to_dict_roundtrip (w : Waveform) :
    Waveform.from_dict (Waveform.to_dict w) =
      some (w, { Waveform.to_dict w with data := DataEntry.ndarray w.data }) := by
  unfold Waveform.from_dict Waveform.to_dict
  simp [parsePairs_map]

/-- C9: `from_dict` mutates its argument dict: afterwards the `"data"` key
holds the constructed numeric array (no longer a nested-list value) while
every other key is unchanged. -/
theorem from_dict_mutates_data_entry (d : WaveformDict) (rows : List (List ℚ))
    (pairs : List (ℚ × ℚ)) (h1 : d.data = DataEntry.pylist rows)
    (h2 : parsePairs rows = some pairs) :
    (Waveform.from_dict d).elim False fun r =>
      r.2 = { d with data := DataEntry.ndarray pairs } ∧
      ∀ rows', r.2.data ≠ DataEntry.pylist rows' := by
  unfold Waveform.from_dict
  rw [h1]
  simp [h2]

/-- C9 witness: a concrete dict with a well-formed nested-list data entry. -/
theorem from_dict_mutates_data_entry_witness :
    (WaveformDict.mk 0 0 0 0 0 0 0 0 0 0 (DataEntry.pylist [[1, 2]])).data
        = DataEntry.pylist [[1, 2]] ∧
    parsePairs [[1, 2]] = some [(1, 2)] ∧
    (Waveform.from_dict
        (WaveformDict.mk 0 0 0 0 0 0 0 0 0 0 (DataEntry.pylist [[1, 2]]))).elim
      False fun r =>
        r.2 = { WaveformDict.mk 0 0 0 0 0 0 0 0 0 0 (DataEntry.pylist [[1, 2]])
                  with data := DataEntry.ndarray [(1, 2)] } ∧
        ∀ rows', r.2.data ≠ DataEntry.pylist rows' :=
  ⟨rfl, rfl,
    from_dict_mutates_data_entry
      (WaveformDict.mk 0 0 0 0 0 0 0 0 0 0 (DataEntry.pylist [[1, 2]]))
      [[1, 2]] [(1, 2)] rfl rfl⟩

/-- C10: `compare` on an instance whose `reference_image` is still `None`
raises (`none`) for every waveform and never yields a result, and `compare`
never changes the instance state (its state output always equals its state
input). -/
theorem compare_without_reference_raises :
    (∀ (resolution : ℤ × ℤ) (w : Waveform),
      WaveformPassFail.compare (WaveformPassFail.mk' resolution) w = none) ∧
    ∀ (st : WaveformPassFail) (w : Waveform),
      (WaveformPassFail.compare st w).map Prod.fst
        = (WaveformPassFail.compare st w).map fun _ => st := by
  constructor
  · intro resolution w
    unfold WaveformPassFail.compare WaveformPassFail.mk'
    cases h : w.to_binary_image (resolution, (none : Option BinImage)).1 1 <;> simp
  · intro st w
    unfold WaveformPassFail.compare
    cases h1 : w.to_binary_image st.resolution 1 with
    | none => simp
    | some measured =>
      cases h2 : st.reference_image with
      | none => simp
      | some ref =>
        cases h3 : ImageChops.subtract measured ref with
        | none => simp [h3]
        | some o => simp [h3]

theorem arange_ne_nil (n : ℕ) (h : 0 < n) : arange n ≠ [] := by
  intro hc
  have := arange_length n
  rw [hc] at this
  simp at this
  omega

/-- Every row index produced by the voltage→row stage of
`_map_series_to_image_coords` lies in `[1, dst_height]`. -/
theorem y_coords_bounds (series : List ℚ) (src_min src_max : ℚ)
    (dst_height : ℕ) (h2 : 0 < dst_height) :
    ∀ z ∈ y_coords series src_min src_max dst_height,
      1 ≤ z ∧ z ≤ (dst_height : ℤ) := by
  intro z hz
  obtain ⟨v, _, rfl⟩ := List.mem_map.mp hz
  have hb := interp_bounded 0 ((dst_height : ℚ) - 1) v
    (linspace src_min src_max dst_height) (arange dst_height)
    (by simp [linspace_length, arange_length]) (arange_ne_nil dst_height h2)
    (arange_mem_bounds dst_height)
  have ht := truncInt_bounds 0 ((dst_height : ℤ) - 1) _ le_rfl
    (by exact_mod_cast hb.1) (by push_cast; exact hb.2)
  omega

/-- Every resulting y pixel coordinate lies in `[1, dst_height]`. -/
theorem x_to_y_coords_bounds (series : List ℚ) (src_min src_max : ℚ)
    (dst_width dst_height : ℕ) (h1 : series ≠ []) (h2 : 0 < dst_height) :
    ∀ z ∈ x_to_y_coords series src_min src_max dst_width dst_height,
      1 ≤ z ∧ z ≤ (dst_height : ℤ) := by
  intro z hz
  obtain ⟨x, _, rfl⟩ := List.mem_map.mp hz
  have hqb : ∀ q ∈ (y_coords series src_min src_max dst_height).map
      fun z : ℤ => (z : ℚ), (1 : ℚ) ≤ q ∧ q ≤ (dst_height : ℚ) := by
    intro q hq
    obtain ⟨z, hz', rfl⟩ := List.mem_map.mp hq
    have := y_coords_bounds series src_min src_max dst_height h2 z hz'
    constructor
    · exact_mod_cast this.1
    · exact_mod_cast this.2
  have hyclen : (y_coords series src_min src_max dst_height).length
      = series.length := by
    simp [y_coords]
  have hb := interp_bounded 1 (dst_height : ℚ) x
    (linspace 0 (dst_width : ℚ) series.length)
    ((y_coords series src_min src_max dst_height).map fun z : ℤ => (z : ℚ))
    (by simp [linspace_length, hyclen])
    (by simp [y_coords, h1])
    hqb
  have ht := truncInt_bounds 1 (dst_height : ℤ) _ (by norm_num)
    (by exact_mod_cast hb.1) (by exact_mod_cast hb.2)
  omega

/-- C8: for every input series (voltages outside `[src_min, src_max]`
included), the rasterizer's coordinate mapping produces exactly `dst_width`
ordered pairs whose `x` runs over `0 .. dst_width - 1` and whose `y` always
lies in the closed interval `[0, dst_height]`. -/
theorem map_series_coords_shape_bounds (series : List ℚ) (src_min src_max : ℚ)
    (dst_width dst_height : ℕ) (h1 : series ≠ []) (h2 : 0 < dst_height)
    (h3 : src_min < src_max) :
    (_map_series_to_image_coords series src_min src_max dst_width dst_height).elim
      False fun pts =>
        pts.length = dst_width ∧
        (∀ i, i < dst_width → (pts.getD i (0, 0)).1 = (i : ℤ)) ∧
        ∀ p ∈ pts, 0 ≤ p.2 ∧ p.2 ≤ (dst_height : ℤ) := by
  unfold _map_series_to_image_coords
  rw [if_neg (by push_neg; exact ⟨Nat.pos_iff_ne_zero.mp h2, h1⟩), Option.elim_some]
  have hxylen : (x_to_y_coords series src_min src_max dst_width dst_height).length
      = dst_width := by
    simp [x_to_y_coords, arange_length]
  have hlen : (coordsList series src_min src_max dst_width dst_height).length
      = dst_width := by
    rw [coordsList, List.length_zip]
    simp [hxylen]
  refine ⟨hlen, ?_, ?_⟩
  · intro i hi
    have hi' : i < (coordsList series src_min src_max dst_width dst_height).length := by
      rw [hlen]; exact hi
    rw [List.getD_eq_getElem _ _ hi']
    unfold coordsList at hi' ⊢
    rw [List.getElem_zip, List.getElem_map]
    simp
  · intro p hp
    rw [coordsList] at hp
    have hp2 : p.2 ∈ x_to_y_coords series src_min src_max dst_width dst_height :=
      (List.of_mem_zip (by rwa [← Prod.mk.eta (p := p)] at hp)).2
    have hb := x_to_y_coords_bounds series src_min src_max dst_width dst_height
      h1 h2 p.2 hp2
    exact ⟨by linarith [hb.1], hb.2⟩

/-- C8 witness: a concrete series with out-of-range samples. -/
theorem map_series_coords_shape_bounds_witness :
    (([0, 1, 0, -5] : List ℚ) ≠ []) ∧ 0 < 8 ∧ (-1 : ℚ) < 1 ∧
    (_map_series_to_image_coords [0, 1, 0, -5] (-1) 1 10 8).elim False fun pts =>
      pts.length = 10 ∧
      (∀ i, i < 10 → (pts.getD i (0, 0)).1 = (i : ℤ)) ∧
      ∀ p ∈ pts, 0 ≤ p.2 ∧ p.2 ≤ (8 : ℤ) :=
  ⟨by decide, by decide, by decide,
    map_series_coords_shape_bounds [0, 1, 0, -5] (-1) 1 10 8
      (by decide) (by decide) (by decide)⟩

/-- C2: whenever `compare` returns on an instance holding the reference mask
`R`, its `outside_image` is lit at a pixel exactly when the thickness-1
rasterization of the candidate (the `measured_image`) is lit there and `R`
is not. -/
theorem compare_outside_eq_measured_and_not_reference (st : WaveformPassFail)
    (R : BinImage) (h : st.reference_image = some R) (w : Waveform) :
    (WaveformPassFail.compare st w).elim True fun p =>
      w.to_binary_image st.resolution 1 = some p.2.measured_image ∧
      ∀ x y, p.2.outside_image.pix x y
        = (p.2.measured_image.pix x y && !(R.pix x y)) := by
  unfold WaveformPassFail.compare
  rw [h]
  cases hm : w.to_binary_image st.resolution 1 with
  | none => simp
  | some measured =>
    simp only [Option.some_bind]
    unfold ImageChops.subtract
    by_cases hsz : measured.width = R.width ∧ measured.height = R.height
    · rw [if_pos hsz]
      simp
    · rw [if_neg hsz]
      simp

/-- C2 witness: a concrete instance holding a reference mask. -/
theorem compare_outside_witness :
    (WaveformPassFail.mk (1, 1) (some ⟨1, 1, fun _ _ => false⟩)).reference_image
        = some ⟨1, 1, fun _ _ => false⟩ ∧
    (WaveformPassFail.compare
        (WaveformPassFail.mk (1, 1) (some ⟨1, 1, fun _ _ => false⟩))
        (Waveform.mk 1 0 0 1 (-1) 0 0 0 0 0 [(0, 0)])).elim True fun p =>
      (Waveform.mk 1 0 0 1 (-1) 0 0 0 0 0 [(0, 0)]).to_binary_image
          (WaveformPassFail.mk (1, 1) (some ⟨1, 1, fun _ _ => false⟩)).resolution 1
        = some p.2.measured_image ∧
      ∀ x y, p.2.outside_image.pix x y
        = (p.2.measured_image.pix x y && !((⟨1, 1, fun _ _ => false⟩ : BinImage).pix x y)) :=
  ⟨rfl,
    compare_outside_eq_measured_and_not_reference
      (WaveformPassFail.mk (1, 1) (some ⟨1, 1, fun _ _ => false⟩))
      ⟨1, 1, fun _ _ => false⟩ rfl (Waveform.mk 1 0 0 1 (-1) 0 0 0 0 0 [(0, 0)])⟩

/-- Rasterization of a non-empty waveform at an explicit positive size
always succeeds, producing exactly that size and the polyline drawing. -/
theorem to_binary_image_pos (wf : Waveform) (W H t : ℕ) (hW : 0 < W) (hH : 0 < H)
    (hn : wf.data ≠ []) :
    wf.to_binary_image ((W : ℤ), (H : ℤ)) t
      = some ⟨W, H, fun x y =>
          polylineLit (coordsList wf.voltage_data wf.vertical_min wf.vertical_max W H)
            t x y⟩ := by
  have hW' : ¬ ((W : ℤ) ≤ 0) := by
    simp only [not_le]
    exact_mod_cast hW
  have hH' : ¬ ((H : ℤ) ≤ 0) := by
    simp only [not_le]
    exact_mod_cast hH
  have hser : wf.voltage_data ≠ [] := by
    simp [Waveform.voltage_data, hn]
  simp only [Waveform.to_binary_image, _map_series_to_image_coords]
  rw [if_neg hW', if_neg hH',
    if_neg (show ¬ ((H : ℤ) < 0) from not_lt.mpr (Int.natCast_nonneg H)),
    if_neg (show ¬ ((H : ℤ).toNat = 0 ∨ wf.voltage_data = []) from by
      push_neg
      refine ⟨?_, hser⟩
      omega)]
  rw [Option.map_some']
  simp [Int.toNat_natCast]

/-- Rasterization of a non-empty waveform with positive vertical resolution
at the default size `(0, 0)` succeeds with the default dimensions. -/
theorem to_binary_image_default (wf : Waveform) (t : ℕ) (hn : wf.data ≠ [])
    (hv : 0 < wf.vertical_resolution) :
    wf.to_binary_image (0, 0) t
      = some ⟨wf.num_samples * 2, (wf.vertical_resolution * 2).toNat,
          fun x y => polylineLit
            (coordsList wf.voltage_data wf.vertical_min wf.vertical_max
              (wf.num_samples * 2) ((wf.vertical_resolution * 2).toNat)) t x y⟩ := by
  have hser : wf.voltage_data ≠ [] := by
    simp [Waveform.voltage_data, hn]
  have hWnat : ((wf.num_samples : ℤ) * 2).toNat = wf.num_samples * 2 := by omega
  simp only [Waveform.to_binary_image, _map_series_to_image_coords]
  rw [if_pos (le_refl (0 : ℤ)), if_pos (le_refl (0 : ℤ)),
    if_neg (show ¬ (wf.vertical_resolution * 2 < 0) from by omega),
    if_neg (show ¬ ((wf.vertical_resolution * 2).toNat = 0 ∨ wf.voltage_data = [])
      from by
        push_neg
        refine ⟨?_, hser⟩
        omega)]
  rw [Option.map_some', hWnat]

/-- C7: on an instance already holding a reference mask (whose resolution,
as `add_reference` establishes, is that mask's size), a further
`add_reference` ORs the new rasterization into the mask: every previously
lit pixel stays lit and the lit-pixel count never decreases. -/
theorem add_reference_monotone (st : WaveformPassFail) (old : BinImage)
    (h1 : st.reference_image = some old)
    (h2 : st.resolution = ((old.width : ℤ), (old.height : ℤ)))
    (h3 : 0 < old.width) (h4 : 0 < old.height)
    (r : Waveform) (t : ℚ) (h5 : r.data ≠ []) :
    (WaveformPassFail.add_reference st r t).elim False fun st' =>
      st'.reference_image.elim False fun m =>
        (∀ x y, old.pix x y = true → m.pix x y = true) ∧
        litCount old ≤ litCount m := by
  unfold WaveformPassFail.add_reference
  rw [h2, to_binary_image_pos r old.width old.height _ h3 h4 h5, h1]
  simp only [Option.some_bind]
  unfold ImageChops.logical_or
  rw [if_pos ⟨rfl, rfl⟩]
  simp only [Option.map_some', Option.elim_some]
  constructor
  · intro x y hx
    simp [hx]
  · unfold litCount
    apply Finset.card_le_card
    intro a ha
    simp only [Finset.mem_filter] at ha ⊢
    refine ⟨ha.1, ?_⟩
    simp [ha.2]

/-- C7 witness: a concrete instance holding a mask, plus a concrete second
reference. -/
theorem add_reference_monotone_witness :
    (WaveformPassFail.mk (2, 2) (some ⟨2, 2, fun _ _ => false⟩)).reference_image
        = some ⟨2, 2, fun _ _ => false⟩ ∧
    (WaveformPassFail.mk (2, 2) (some ⟨2, 2, fun _ _ => false⟩)).resolution
        = (((2 : ℕ) : ℤ), ((2 : ℕ) : ℤ)) ∧
    0 < 2 ∧
    (Waveform.mk 1 0 0 1 (-1) 0 0 0 0 0 [(0, 0), (1, 1)]).data ≠ [] ∧
    ((WaveformPassFail.mk (2, 2) (some ⟨2, 2, fun _ _ => false⟩)).add_reference
        (Waveform.mk 1 0 0 1 (-1) 0 0 0 0 0 [(0, 0), (1, 1)]) (1 / 10)).elim False
      fun st' =>
        st'.reference_image.elim False fun m =>
          (∀ x y, (⟨2, 2, fun _ _ => false⟩ : BinImage).pix x y = true →
            m.pix x y = true) ∧
          litCount ⟨2, 2, fun _ _ => false⟩ ≤ litCount m :=
  ⟨rfl, rfl, by decide, by decide,
    add_reference_monotone
      (WaveformPassFail.mk (2, 2) (some ⟨2, 2, fun _ _ => false⟩))
      ⟨2, 2, fun _ _ => false⟩ rfl rfl (by decide) (by decide)
      (Waveform.mk 1 0 0 1 (-1) 0 0 0 0 0 [(0, 0), (1, 1)]) (1 / 10) (by decide)⟩

/-- C1 (amended): for a waveform with at least one sample and positive
`vertical_resolution`, a fresh `WaveformPassFail` given that waveform as its
reference (tolerance `0.1`) and then asked to compare the same waveform
yields an `outside_image` with every pixel zero: the thickness-1 trace is
pixel-wise contained in the tolerance-widened mask drawn from the same
polyline at the same resolution. -/
theorem passfail_self_compare_clean (w : Waveform) (h1 : w.data ≠ [])
    (h2 : 0 < w.vertical_resolution) :
    ((WaveformPassFail.mk' (0, 0)).add_reference w (1 / 10)).elim False fun st1 =>
      (st1.compare w).elim False fun p =>
        ∀ x y, p.2.outside_image.pix x y = false := by
  have hn : 0 < w.num_samples := by
    unfold Waveform.num_samples
    cases hd : w.data with
    | nil => exact absurd hd h1
    | cons a l => simp [hd]
  have hT1 : 1 ≤ (⌈(w.num_samples : ℚ) * (1 / 10)⌉).toNat := by
    have hpos : (0 : ℚ) < (w.num_samples : ℚ) * (1 / 10) := by
      have : (0 : ℚ) < (w.num_samples : ℚ) := by exact_mod_cast hn
      positivity
    have := Int.ceil_pos.mpr hpos
    omega
  have happ : (WaveformPassFail.mk' (0, 0)).add_reference w (1 / 10)
      = some ⟨(((w.num_samples * 2 : ℕ) : ℤ),
          (((w.vertical_resolution * 2).toNat : ℕ) : ℤ)),
          some ⟨w.num_samples * 2, (w.vertical_resolution * 2).toNat,
            fun x y => polylineLit
              (coordsList w.voltage_data w.vertical_min w.vertical_max
                (w.num_samples * 2) ((w.vertical_resolution * 2).toNat))
              ((⌈(w.num_samples : ℚ) * (1 / 10)⌉).toNat) x y⟩⟩ := by
    unfold WaveformPassFail.add_reference WaveformPassFail.mk'
    rw [show (⟨(0, 0), none⟩ : WaveformPassFail).resolution = (0, 0) from rfl,
      to_binary_image_default w _ h1 h2]
    rfl
  rw [happ, Option.elim_some]
  have hcmp : WaveformPassFail.compare
      ⟨(((w.num_samples * 2 : ℕ) : ℤ), (((w.vertical_resolution * 2).toNat : ℕ) : ℤ)),
        some ⟨w.num_samples * 2, (w.vertical_resolution * 2).toNat,
          fun x y => polylineLit
            (coordsList w.voltage_data w.vertical_min w.vertical_max
              (w.num_samples * 2) ((w.vertical_resolution * 2).toNat))
            ((⌈(w.num_samples : ℚ) * (1 / 10)⌉).toNat) x y⟩⟩ w
      = some (⟨(((w.num_samples * 2 : ℕ) : ℤ),
            (((w.vertical_resolution * 2).toNat : ℕ) : ℤ)),
          some ⟨w.num_samples * 2, (w.vertical_resolution * 2).toNat,
            fun x y => polylineLit
              (coordsList w.voltage_data w.vertical_min w.vertical_max
                (w.num_samples * 2) ((w.vertical_resolution * 2).toNat))
              ((⌈(w.num_samples : ℚ) * (1 / 10)⌉).toNat) x y⟩⟩,
          ⟨⟨w.num_samples * 2, (w.vertical_resolution * 2).toNat,
            fun x y => polylineLit
              (coordsList w.voltage_data w.vertical_min w.vertical_max
                (w.num_samples * 2) ((w.vertical_resolution * 2).toNat))
              ((⌈(w.num_samples : ℚ) * (1 / 10)⌉).toNat) x y⟩,
          ⟨w.num_samples * 2, (w.vertical_resolution * 2).toNat,
            fun x y => polylineLit
              (coordsList w.voltage_data w.vertical_min w.vertical_max
                (w.num_samples * 2) ((w.vertical_resolution * 2).toNat)) 1 x y⟩,
          ⟨w.num_samples * 2, (w.vertical_resolution * 2).toNat,
            fun x y =>
              polylineLit
                (coordsList w.voltage_data w.vertical_min w.vertical_max
                  (w.num_samples * 2) ((w.vertical_resolution * 2).toNat)) 1 x y &&
              !polylineLit
                (coordsList w.voltage_data w.vertical_min w.vertical_max
                  (w.num_samples * 2) ((w.vertical_resolution * 2).toNat))
                ((⌈(w.num_samples : ℚ) * (1 / 10)⌉).toNat) x y⟩⟩) := by
    unfold WaveformPassFail.compare
    rw [show (⟨(((w.num_samples * 2 : ℕ) : ℤ),
          (((w.vertical_resolution * 2).toNat : ℕ) : ℤ)), some _⟩ :
        WaveformPassFail).resolution
        = (((w.num_samples * 2 : ℕ) : ℤ), (((w.vertical_resolution * 2).toNat : ℕ) : ℤ))
      from rfl]
    rw [to_binary_image_pos w (w.num_samples * 2) ((w.vertical_resolution * 2).toNat)
      1 (by omega) (by omega) h1]
    simp only [Option.some_bind]
    unfold ImageChops.subtract
    rw [if_pos ⟨rfl, rfl⟩]
    rfl
  rw [hcmp, Option.elim_some]
  intro x y
  show (polylineLit
      (coordsList w.voltage_data w.vertical_min w.vertical_max
        (w.num_samples * 2) ((w.vertical_resolution * 2).toNat)) 1 x y &&
    !polylineLit
      (coordsList w.voltage_data w.vertical_min w.vertical_max
        (w.num_samples * 2) ((w.vertical_resolution * 2).toNat))
      ((⌈(w.num_samples : ℚ) * (1 / 10)⌉).toNat) x y) = false
  cases hb : polylineLit
      (coordsList w.voltage_data w.vertical_min w.vertical_max
        (w.num_samples * 2) ((w.vertical_resolution * 2).toNat)) 1 x y with
  | false => rfl
  | true =>
    rw [polylineLit_mono _ 1 _ hT1 x y hb]
    rfl

/-- C1 counterexample: a waveform with one sample but `vertical_resolution`
`0` defeats the claim as stated — the default mask height is `0`, so
`add_reference` raises inside `np.interp` (modelled `none`) and no
`outside_image` is ever produced. -/
theorem passfail_self_compare_counterexample :
    (Waveform.mk 0 0 0 0 0 0 0 0 0 0 [(0, 0)]).data ≠ [] ∧
    ¬ (((WaveformPassFail.mk' (0, 0)).add_reference
          (Waveform.mk 0 0 0 0 0 0 0 0 0 0 [(0, 0)]) (1 / 10)).elim False fun st1 =>
        (st1.compare (Waveform.mk 0 0 0 0 0 0 0 0 0 0 [(0, 0)])).elim False fun p =>
          ∀ x y, p.2.outside_image.pix x y = false) := by
  refine ⟨by decide, ?_⟩
  intro hc
  rw [show (WaveformPassFail.mk' (0, 0)).add_reference
      (Waveform.mk 0 0 0 0 0 0 0 0 0 0 [(0, 0)]) (1 / 10) = none from rfl] at hc
  exact hc

/-- C1 witness: a concrete two-sample waveform with positive vertical
resolution. -/
theorem passfail_self_compare_clean_witness :
    (Waveform.mk 1 0 0 1 (-1) 0 0 0 0 0 [(0, 0), (1, 1)]).data ≠ [] ∧
    0 < (Waveform.mk 1 0 0 1 (-1) 0 0 0 0 0 [(0, 0), (1, 1)]).vertical_resolution ∧
    ((WaveformPassFail.mk' (0, 0)).add_reference
        (Waveform.mk 1 0 0 1 (-1) 0 0 0 0 0 [(0, 0), (1, 1)]) (1 / 10)).elim False
      fun st1 =>
        (st1.compare (Waveform.mk 1 0 0 1 (-1) 0 0 0 0 0 [(0, 0), (1, 1)])).elim False
          fun p => ∀ x y, p.2.outside_image.pix x y = false :=
  ⟨by decide, by decide,
    passfail_self_compare_clean (Waveform.mk 1 0 0 1 (-1) 0 0 0 0 0 [(0, 0), (1, 1)])
      (by decide) (by decide)⟩
